import Mathlib

/-!
# go-quic/quic-server.go

A shallow embedding of the HTTP/3 file server glue: the `responseWrapper`
type with its `WriteHeader` method, the `loggingMiddleware` decorator and the
`ClosedConnection` tracer callback installed in `main`.

Conventions of the embedding.

* A value of the Go interface type `http.ResponseWriter` is a record of its
  three methods acting on a state (`http.ResponseWriter ω`); methods that
  mutate the receiver return the new state.
* The dynamic type of a writer can have further methods (`Flush` of
  `http.Flusher`, `ReadFrom` of `io.ReaderFrom`, ...); they are looked up by
  name in the field `method`, arguments and results encoded as bytes.
* A handler is a program over its writer (`Prog`): it can call `WriteHeader`,
  `Write` and `Header`, mutate the header map, type-assert the writer to an
  interface with a further method and call that method, and finally return
  or panic.
* `time.Now()` and `time.Since(start)` are two clock readings passed in.
* Output of `log.Printf` and the calls that reach the underlying writer are
  appended to one chronological list of `Event`s.
-/

namespace QuicServer

/-! ## Data -/

/-- A byte slice `[]byte`. -/
abbrev Bytes := List Nat

/-- The map type `http.Header`. -/
abbrev http.Header := List (String × List String)

/-- The part of `url.URL` the program reads. -/
structure url.URL where
  Path : String
deriving DecidableEq, Repr

/-- The fields of `http.Request` the program reads. -/
structure http.Request where
  RemoteAddr : String
  Method : String
  URL : url.URL
  Header : http.Header
deriving DecidableEq, Repr

/-- An argument of a `log.Printf` call. -/
inductive Arg where
  | str (s : String)
  | int (n : Int)
  | header (h : http.Header)
  | duration (d : Int)
  | error (e : String)
deriving DecidableEq, Repr

/-- One `log.Printf(format, args...)` call: one line of log output. -/
structure LogLine where
  format : String
  args : List Arg
deriving DecidableEq, Repr

/-- The result `(n int, err error)` of `Write`. -/
abbrev WriteResult := Int × Option String

/-- What can be observed, in chronological order. -/
inductive Event where
  /-- A line written by `log.Printf`. -/
  | log (l : LogLine)
  /-- The call `next.ServeHTTP(_, r)` is entered. -/
  | serveHTTP (r : http.Request)
  /-- The call `next.ServeHTTP` has returned normally. -/
  | returned
  /-- The call `WriteHeader(code)` reaches the underlying writer. -/
  | writeHeader (code : Int)
  /-- The call `Write(b)` reaches the underlying writer. -/
  | write (b : Bytes)
  /-- A call of the further method `m` reaches the underlying writer. -/
  | method (m : String) (arg : Bytes)
deriving DecidableEq, Repr

/-- The `http.StatusOK` constant. -/
def http.StatusOK : Int := 200

/-! ## The `http.ResponseWriter` interface and handlers -/

/-- An `http.ResponseWriter` whose receiver state has type `ω`.  `Header`
returns the header map; `putHeader` is a mutation of that map through the
reference `Header()` returned.  `method` is the rest of the method set of the
writer's dynamic type, by method name: what a type assertion such as
`w.(http.Flusher)` or `w.(io.ReaderFrom)` finds. -/
structure http.ResponseWriter (ω : Type) where
  Header : ω → http.Header
  putHeader : ω → http.Header → ω
  Write : ω → Bytes → ω × WriteResult
  WriteHeader : ω → Int → ω
  method : String → Option (ω → Bytes → ω × Bytes)

/-- A handler body: the calls it makes on its writer, each continuation
receiving what the call returned, ended by a normal return (with the state in
which it leaves the request `*r`) or by a panic.  `implements m` is the type
assertion `_, ok := w.(I)` for the interface `I` with method `m`; `call m` is
`w.(I).m(arg)`, which panics when the assertion fails. -/
inductive Prog where
  | ret (r : http.Request)
  | panic (v : String)
  | WriteHeader (code : Int) (k : Prog)
  | Write (b : Bytes) (k : WriteResult → Prog)
  | Header (k : http.Header → Prog)
  | putHeader (h : http.Header) (k : Prog)
  | implements (m : String) (k : Bool → Prog)
  | call (m : String) (arg : Bytes) (k : Bytes → Prog)

/-- An `http.Handler`: its `ServeHTTP(w, r)` run on request `r`. -/
abbrev http.Handler := http.Request → Prog

/-- How a handler call ends: `some r` is a normal return leaving the request
as `r`, `none` a panic. -/
abbrev Outcome := Option http.Request

/-- Runs a handler body against the writer `W` in state `s`. -/
def Prog.exec {ω : Type} (W : http.ResponseWriter ω) : Prog → ω → ω × Outcome
  | .ret r, s => (s, some r)
  | .panic _, s => (s, none)
  | .WriteHeader code k, s => k.exec W (W.WriteHeader s code)
  | .Write b k, s => (k (W.Write s b).2).exec W (W.Write s b).1
  | .Header k, s => (k (W.Header s)).exec W s
  | .putHeader h k, s => k.exec W (W.putHeader s h)
  | .implements m k, s => (k (W.method m).isSome).exec W s
  | .call m arg k, s =>
    match W.method m with
    | none => (s, none)
    | some f => (k (f s arg).2).exec W (f s arg).1

/-- A handler body that reaches its writer only through `Header`, `Write` and
`WriteHeader`: it makes no type assertion on the writer. -/
def Prog.interfaceOnly : Prog → Prop
  | .ret _ => True
  | .panic _ => True
  | .WriteHeader _ k => k.interfaceOnly
  | .Write _ k => ∀ x, (k x).interfaceOnly
  | .Header k => ∀ h, (k h).interfaceOnly
  | .putHeader _ k => k.interfaceOnly
  | .implements _ _ => False
  | .call _ _ _ => False

/-- The writer seen as a plain `http.ResponseWriter`: the three interface
methods and nothing else. -/
def http.ResponseWriter.plain {ω : Type} (W : http.ResponseWriter ω) : http.ResponseWriter ω :=
  { W with method := fun _ => none }

/-- The program state around a writer of state `σ`: the writer and everything
observed so far. -/
structure World (σ : Type) where
  w : σ
  events : List Event

/-- The function `log.Printf`. -/
def log.Printf {σ : Type} (format : String) (args : List Arg) (s : World σ) : World σ :=
  { s with events := s.events ++ [Event.log ⟨format, args⟩] }

/-- The underlying writer `w` as a Go value: every `WriteHeader` and `Write`
call made on it, and every call of a further method, is observed and then
performed by `W`. -/
def underlying {σ : Type} (W : http.ResponseWriter σ) : http.ResponseWriter (World σ) where
  Header s := W.Header s.w
  putHeader s h := { s with w := W.putHeader s.w h }
  Write s b := ({ w := (W.Write s.w b).1, events := s.events ++ [Event.write b] }, (W.Write s.w b).2)
  WriteHeader s code := { w := W.WriteHeader s.w code, events := s.events ++ [Event.writeHeader code] }
  method m := (W.method m).map fun f s arg =>
    ({ w := (f s.w arg).1, events := s.events ++ [Event.method m arg] }, (f s.w arg).2)

/-! ## `responseWrapper` -/

/-- The struct `responseWrapper`: the embedded `http.ResponseWriter` (here the
state of the writer it refers to) and `statusCode`. -/
structure responseWrapper (ω : Type) where
  ResponseWriter : ω
  statusCode : Int

/-- The method `(*responseWrapper).WriteHeader`. -/
def responseWrapper.WriteHeader {ω : Type} (W : http.ResponseWriter ω) (rw : responseWrapper ω)
    (code : Int) : responseWrapper ω :=
  let rw := { rw with statusCode := code }
  { rw with ResponseWriter := W.WriteHeader rw.ResponseWriter code }

/-- The method `Write` of `*responseWrapper`, promoted from the embedded
writer. -/
def responseWrapper.Write {ω : Type} (W : http.ResponseWriter ω) (rw : responseWrapper ω)
    (b : Bytes) : responseWrapper ω × WriteResult :=
  ({ rw with ResponseWriter := (W.Write rw.ResponseWriter b).1 }, (W.Write rw.ResponseWriter b).2)

/-- The method `Header` of `*responseWrapper`, promoted from the embedded
writer. -/
def responseWrapper.Header {ω : Type} (W : http.ResponseWriter ω) (rw : responseWrapper ω) : http.Header :=
  W.Header rw.ResponseWriter

/-- A `*responseWrapper` used as an `http.ResponseWriter`.  The struct embeds
the interface type, so its method set is `Header` and `Write` (promoted) and
`WriteHeader`: no further method of the embedded writer is promoted, and a
type assertion of the wrapper to another interface fails. -/
def responseWrapper.asWriter {ω : Type} (W : http.ResponseWriter ω) : http.ResponseWriter (responseWrapper ω) where
  Header rw := responseWrapper.Header W rw
  putHeader rw h := { rw with ResponseWriter := W.putHeader rw.ResponseWriter h }
  Write rw b := responseWrapper.Write W rw b
  WriteHeader rw code := responseWrapper.WriteHeader W rw code
  method _ := none

/-! ## `loggingMiddleware` -/

/-- The handler returned by `loggingMiddleware(next)`, serving request `r` on
the writer `W`; `start` is the reading of `time.Now()` on entry and `finish`
the clock when `time.Since(start)` is evaluated. -/
def loggingMiddleware {σ : Type} (W : http.ResponseWriter σ) (next : http.Handler) (start finish : Int)
    (r : http.Request) (w : World σ) : World σ × Outcome :=
  let w := log.Printf "新请求: %s %s %s\n" [.str r.RemoteAddr, .str r.Method, .str r.URL.Path] w
  let w := log.Printf "请求头: %v\n" [.header r.Header] w
  let wrapper : responseWrapper (World σ) := { ResponseWriter := w, statusCode := http.StatusOK }
  let wrapper := { wrapper with ResponseWriter :=
    { wrapper.ResponseWriter with events := wrapper.ResponseWriter.events ++ [Event.serveHTTP r] } }
  match (next r).exec (responseWrapper.asWriter (underlying W)) wrapper with
  | (wrapper, none) => (wrapper.ResponseWriter, none)
  | (wrapper, some r) =>
    let w : World σ := { wrapper.ResponseWriter with
      events := wrapper.ResponseWriter.events ++ [Event.returned] }
    let duration := finish - start
    (log.Printf "请求完成: %s %s %s - 状态码: %d - 耗时: %v\n"
      [.str r.RemoteAddr, .str r.Method, .str r.URL.Path, .int wrapper.statusCode,
        .duration duration] w, some r)

/-! ## The tracer of `main` -/

/-- The `ClosedConnection` callback of the tracer built in `main`; `err` is
`none` for a nil error. -/
def ClosedConnection {σ : Type} (err : Option String) (w : World σ) : World σ :=
  match err with
  | some e => log.Printf "连接关闭，错误: %v\n" [.error e] w
  | none => log.Printf "连接正常关闭\n" [] w


/-! ## Reading the event list -/

/-- Whether an event is a `WriteHeader` or `Write` call on the underlying
writer. -/
def Event.isCall : Event → Bool
  | .writeHeader _ => true
  | .write _ => true
  | _ => false

/-- The `WriteHeader` and `Write` calls that reached the underlying writer. -/
def calls (es : List Event) : List Event := es.filter Event.isCall

/-- The requests with which `next.ServeHTTP` was entered. -/
def invocations (es : List Event) : List http.Request :=
  es.filterMap fun e => match e with
    | .serveHTTP r => some r
    | _ => none

/-- The lines written by `log.Printf`. -/
def logLines (es : List Event) : List LogLine :=
  es.filterMap fun e => match e with
    | .log l => some l
    | _ => none

/-! ## A writer with the semantics of `net/http` -/

/-- Modelled from the spec: the response state of an underlying writer that
follows `net/http` (the standard library is not part of the repository).
`status` is the status line once it is fixed, `body` the bytes written. -/
structure NetResponse where
  status : Option Int
  header : http.Header
  body : Bytes
deriving DecidableEq, Repr

/-- Modelled from the spec: the `net/http` writer of the claim on the logged
status.  The first `WriteHeader` with a final status (not 1xx) fixes the
status, later `WriteHeader` calls are ignored, and a `Write` with no prior
`WriteHeader` sends 200. -/
def netHTTP : http.ResponseWriter NetResponse where
  Header s := s.header
  putHeader s h := { s with header := h }
  Write s b :=
    let s := if s.status.isNone then { s with status := some http.StatusOK } else s
    ({ s with body := s.body ++ b }, ((b.length : Int), none))
  WriteHeader s code :=
    if s.status.isSome then s
    else if 200 ≤ code then { s with status := some code }
    else s
  method _ := none

/-- Modelled from the spec: the status code of the response the client
receives; a handler that returns without fixing one gets 200. -/
def NetResponse.sent (s : NetResponse) : Int := s.status.getD http.StatusOK

/-- A fresh `net/http` response. -/
def NetResponse.fresh : NetResponse := { status := none, header := [], body := [] }

/-! ## Sample inputs -/

/-- A request for `/index.html`. -/
def sampleRequest : http.Request :=
  { RemoteAddr := "[::1]:50000", Method := "GET", URL := ⟨"/index.html"⟩,
    Header := [("Accept", ["*/*"])] }

/-- A handler that answers 200 with a three-byte body. -/
def okHandler : http.Handler :=
  fun r => .WriteHeader 200 (.Write [104, 105, 10] fun _ => .ret r)

/-- A writer like `netHTTP` whose dynamic type also implements
`io.ReaderFrom`: `ReadFrom` takes the bytes of the source into the body. -/
def readerFromWriter : http.ResponseWriter NetResponse :=
  { netHTTP with
    method := fun m =>
      if m = "ReadFrom" then some fun s src => ((netHTTP.Write s src).1, []) else none }

/-- A handler that copies three bytes to its writer as `io.Copy` does:
through `ReadFrom` when the writer is an `io.ReaderFrom`, through `Write`
otherwise. -/
def copyHandler : http.Handler :=
  fun r => .implements "ReadFrom" fun ok =>
    if ok then .call "ReadFrom" [104, 105, 10] fun _ => .ret r
    else .Write [104, 105, 10] fun _ => .ret r

/-- A handler that reports 404 and then, on a late failure, calls
`WriteHeader(500)`. -/
def lateErrorHandler : http.Handler :=
  fun r => .WriteHeader 404 (.WriteHeader 500 (.ret r))

end QuicServer

/-!
# The transport core described by the specification

The QUIC transport itself (stream reassembly, congestion control) is not in
`quic-server.go`: `main` hands it to the `quic-go` library.  The two models
below follow sections 3, 4.3 and 4.4 of the specification.
-/

namespace Transport

/-! ## Stream reassembly (section 4.4) -/

/-- Modelled from the spec: a STREAM frame (section 3) of one stream: offset,
data and fin flag.  The stream-reassembly code is missing from the
repository. -/
structure StreamFrame where
  offset : Nat
  data : List Nat
  fin : Bool
deriving DecidableEq, Repr

/-- Modelled from the spec: the per-stream reassembly buffer (section 4.4),
missing from the repository.  `receiveOffset` is the stream's receive offset,
`pending` the buffered-but-unread bytes keyed by offset, `finalSize` the end
of the stream once a frame with the fin flag has arrived. -/
structure ReassemblyBuffer where
  receiveOffset : Nat
  pending : List (Nat × Nat)
  finalSize : Option Nat
deriving DecidableEq, Repr

/-- Modelled from the spec: the buffer of a new stream. -/
def ReassemblyBuffer.empty : ReassemblyBuffer :=
  { receiveOffset := 0, pending := [], finalSize := none }

/-- Modelled from the spec: one byte of an incoming frame is stored under its
offset, unless it lies below the receive offset or that offset is already
buffered (overlapping or duplicate ranges are deduplicated). -/
def ReassemblyBuffer.insertByte (b : ReassemblyBuffer) (off x : Nat) : ReassemblyBuffer :=
  if off < b.receiveOffset then b
  else if (b.pending.lookup off).isSome then b
  else { b with pending := (off, x) :: b.pending }

/-- Modelled from the spec: the bytes `xs` of a frame are stored from offset
`off` on. -/
def ReassemblyBuffer.insertBytes (b : ReassemblyBuffer) (off : Nat) : List Nat → ReassemblyBuffer
  | [] => b
  | x :: xs => (b.insertByte off x).insertBytes (off + 1) xs

/-- Modelled from the spec: an incoming STREAM frame is inserted into the
reassembly buffer. -/
def ReassemblyBuffer.insert (b : ReassemblyBuffer) (f : StreamFrame) : ReassemblyBuffer :=
  let b := b.insertBytes f.offset f.data
  if f.fin then { b with finalSize := some (f.offset + f.data.length) } else b

/-- Modelled from the spec: the buffered bytes at `off`, `off + 1`, ... up to
the first gap, looking at no more than `fuel` offsets. -/
def contiguous (pending : List (Nat × Nat)) : Nat → Nat → List Nat
  | 0, _ => []
  | fuel + 1, off =>
    match pending.lookup off with
    | none => []
    | some x => x :: contiguous pending fuel (off + 1)

/-- Modelled from the spec: the result of the per-stream `read`. -/
inductive ReadResult where
  | bytes (bs : List Nat)
  | WouldBlock
  | Finished
deriving DecidableEq, Repr

/-- The bytes a `read` handed to the application. -/
def ReadResult.data : ReadResult → List Nat
  | .bytes bs => bs
  | _ => []

/-- Modelled from the spec: the per-stream `read`.  Data is readable only
once all preceding offsets have arrived: the bytes from the receive offset up
to the first gap are returned and the receive offset advances past them. -/
def ReassemblyBuffer.read (b : ReassemblyBuffer) : ReassemblyBuffer × ReadResult :=
  let bs := contiguous b.pending b.pending.length b.receiveOffset
  if bs = [] then
    (b, if b.finalSize = some b.receiveOffset then .Finished else .WouldBlock)
  else
    ({ b with
        receiveOffset := b.receiveOffset + bs.length
        pending := b.pending.filter fun e => decide (b.receiveOffset + bs.length ≤ e.1) },
      .bytes bs)

/-- What happens to the receiving side of a stream: a frame arrives or the
application reads. -/
inductive StreamEvent where
  | frame (f : StreamFrame)
  | read
deriving DecidableEq, Repr

/-- The receiving side of a stream: its buffer and all bytes `read` has
returned so far. -/
structure Receiver where
  buffer : ReassemblyBuffer
  delivered : List Nat
deriving DecidableEq, Repr

/-- One event on the receiving side. -/
def Receiver.step (s : Receiver) : StreamEvent → Receiver
  | .frame f => { s with buffer := s.buffer.insert f }
  | .read => { buffer := s.buffer.read.1, delivered := s.delivered ++ s.buffer.read.2.data }

/-- A sequence of events on a new stream. -/
def Receiver.run (evs : List StreamEvent) : Receiver :=
  evs.foldl Receiver.step { buffer := ReassemblyBuffer.empty, delivered := [] }

/-- The frame carries the bytes the sender wrote at its offsets. -/
def StreamFrame.carries (f : StreamFrame) (sent : List Nat) : Prop :=
  ∀ i, i < f.data.length → sent[f.offset + i]? = f.data[i]?

instance (f : StreamFrame) (sent : List Nat) : Decidable (f.carries sent) := by
  unfold StreamFrame.carries; infer_instance

/-- A frame that arrives carries bytes the sender wrote. -/
def StreamEvent.carries : StreamEvent → List Nat → Prop
  | .frame f, sent => f.carries sent
  | .read, _ => True

instance (e : StreamEvent) (sent : List Nat) : Decidable (e.carries sent) := by
  cases e <;> unfold StreamEvent.carries <;> infer_instance

/-- The event is a frame whose byte range contains offset `i`. -/
def StreamEvent.covers : StreamEvent → Nat → Prop
  | .frame f, i => f.offset ≤ i ∧ i < f.offset + f.data.length
  | .read, _ => False

instance (e : StreamEvent) (i : Nat) : Decidable (e.covers i) := by
  cases e <;> unfold StreamEvent.covers <;> infer_instance

/-- The frames among `evs` cover every offset of `sent`: a contiguous byte
range starting at offset 0. -/
def covers (evs : List StreamEvent) (sent : List Nat) : Prop :=
  ∀ i, i < sent.length → ∃ e ∈ evs, e.covers i

instance (evs : List StreamEvent) (sent : List Nat) : Decidable (covers evs sent) := by
  unfold covers; infer_instance

/-- Offset `i` has arrived: it was already read or is buffered. -/
def ReassemblyBuffer.has (b : ReassemblyBuffer) (i : Nat) : Prop :=
  i < b.receiveOffset ∨ (b.pending.lookup i).isSome = true

/-- The receiving side agrees with the bytes `sent`: what was read is the
beginning of `sent` up to the receive offset, and every buffered byte is the
byte sent at its offset. -/
structure Receiver.Agrees (s : Receiver) (sent : List Nat) : Prop where
  delivered_eq : s.delivered = sent.take s.buffer.receiveOffset
  offset_le : s.buffer.receiveOffset ≤ sent.length
  pending_eq : ∀ k x, s.buffer.pending.lookup k = some x → sent[k]? = some x

/-- Four bytes written by the sender. -/
def sampleSent : List Nat := [10, 11, 12, 13]

/-- The bytes of `sampleSent` arriving out of order, with an overlap and a
duplicate, and reads in between. -/
def sampleEvents : List StreamEvent :=
  [.frame ⟨2, [12, 13], true⟩, .read, .frame ⟨0, [10, 11, 12], false⟩,
    .frame ⟨2, [12, 13], true⟩, .read, .frame ⟨1, [11], false⟩]

/-! ## Congestion control (section 4.3) -/

/-- Modelled from the spec: the state the Flow & Congestion Controller tracks
(section 4.3), in bytes.  The controller is missing from the repository. -/
structure CongestionController where
  congestion_window : Nat
  bytes_in_flight : Nat
  slow_start_threshold : Nat
deriving DecidableEq, Repr

/-- The events of a congestion controller: a packet of `n` bytes is offered
for sending, is acknowledged, or is declared lost. -/
inductive CongestionEvent where
  | send (n : Nat)
  | ack (n : Nat)
  | loss (n : Nat)
deriving DecidableEq, Repr

/-- Modelled from the spec: the rule by which the controller admits a packet
of `n` bytes for sending.  The spec gives one condition on it
(`SendGate.onlyWhileOpen`) and no controller is in the repository, so the
rule is a parameter of the model. -/
abbrev SendGate := CongestionController → Nat → Bool

/-- Modelled from the spec: "Sending is permitted only while
`bytes_in_flight < congestion_window`". -/
def SendGate.onlyWhileOpen (gate : SendGate) : Prop :=
  ∀ c n, gate c n = true → c.bytes_in_flight < c.congestion_window

/-- A gate that admits only a packet that fits into the window. -/
def SendGate.fits (gate : SendGate) : Prop :=
  ∀ c n, gate c n = true → c.bytes_in_flight + n ≤ c.congestion_window

/-- The gate that admits every packet while
`bytes_in_flight < congestion_window`. -/
def gateOpen : SendGate :=
  fun c _ => decide (c.bytes_in_flight < c.congestion_window)

/-- The gate that admits a packet while `bytes_in_flight < congestion_window`
if the packet fits into the window. -/
def gateFits : SendGate :=
  fun c n => decide (c.bytes_in_flight < c.congestion_window ∧
    c.bytes_in_flight + n ≤ c.congestion_window)

/-- Modelled from the spec: a packet the gate admits goes into flight;
otherwise the caller is blocked and nothing changes. -/
def CongestionController.send (gate : SendGate) (c : CongestionController) (n : Nat) :
    CongestionController :=
  if gate c n then { c with bytes_in_flight := c.bytes_in_flight + n } else c

/-- Modelled from the spec: an acknowledged packet leaves flight; in slow
start (below the threshold) the window grows by the packet, afterwards by
`MSS * acked_bytes / window`. -/
def CongestionController.ack (mss : Nat) (c : CongestionController) (n : Nat) :
    CongestionController :=
  { c with
    bytes_in_flight := c.bytes_in_flight - n
    congestion_window :=
      if c.congestion_window < c.slow_start_threshold then c.congestion_window + n
      else c.congestion_window + mss * n / c.congestion_window }

/-- Modelled from the spec: on loss the window is halved and
`slow_start_threshold` set to the new window; the lost packet leaves flight. -/
def CongestionController.loss (c : CongestionController) (n : Nat) : CongestionController :=
  { congestion_window := c.congestion_window / 2
    slow_start_threshold := c.congestion_window / 2
    bytes_in_flight := c.bytes_in_flight - n }

/-- One event of the controller. -/
def CongestionController.step (gate : SendGate) (mss : Nat) (c : CongestionController) :
    CongestionEvent → CongestionController
  | .send n => c.send gate n
  | .ack n => c.ack mss n
  | .loss n => c.loss n

/-- The state reached from `c` by a sequence of events. -/
def CongestionController.run (gate : SendGate) (mss : Nat) (c : CongestionController)
    (evs : List CongestionEvent) : CongestionController :=
  evs.foldl (CongestionController.step gate mss) c

/-- The largest `congestion_window` among the states the controller visits
from `c` under a sequence of events, `c` and the last state included. -/
def CongestionController.largestWindow (gate : SendGate) (mss : Nat)
    (c : CongestionController) : List CongestionEvent → Nat
  | [] => c.congestion_window
  | e :: evs => max c.congestion_window ((c.step gate mss e).largestWindow gate mss evs)

/-- A controller in congestion avoidance with a window of three packets and
nothing in flight. -/
def sampleController : CongestionController :=
  { congestion_window := 3600, bytes_in_flight := 0, slow_start_threshold := 3600 }

/-- A run with an acknowledgment, sends up to the gate and a loss. -/
def sampleRun : List CongestionEvent :=
  [.send 1200, .ack 1200, .send 1200, .send 1200, .send 1200, .send 1200, .loss 1200]

end Transport

/-! # Theorems -/

namespace QuicServer

/-! ## The wrapper forwards the interface calls and hides the rest -/

/-- Running a handler body on a `*responseWrapper` leaves the embedded writer
and the outcome exactly as running it on the embedded writer seen as a plain
`http.ResponseWriter`. -/
theorem exec_asWriter {ω : Type} (U : http.ResponseWriter ω) (p : Prog) (rw : responseWrapper ω) :
    ((p.exec (responseWrapper.asWriter U) rw).1.ResponseWriter,
      (p.exec (responseWrapper.asWriter U) rw).2) = p.exec U.plain rw.ResponseWriter := by
  induction p generalizing rw with
  | ret r => rfl
  | panic v => rfl
  | WriteHeader code k ih => exact ih _
  | Write b k ih => exact ih _ _
  | Header k ih => exact ih _ _
  | putHeader h k ih => exact ih _
  | implements m k ih => exact ih _ _
  | call m arg k ih => rfl

theorem exec_asWriter_of_eq {ω : Type} (U : http.ResponseWriter ω) (p : Prog)
    (rw : responseWrapper ω) (x : responseWrapper ω × Outcome)
    (hx : p.exec (responseWrapper.asWriter U) rw = x) :
    p.exec U.plain rw.ResponseWriter = (x.1.ResponseWriter, x.2) := by
  subst hx
  exact (exec_asWriter U p rw).symm

/-- The outcome of a handler body on a wrapper does not depend on the
`statusCode` the wrapper starts with. -/
theorem exec_asWriter_outcome {ω : Type} (U : http.ResponseWriter ω) (p : Prog)
    (rw : responseWrapper ω) :
    (p.exec (responseWrapper.asWriter U) rw).2 = (p.exec U.plain rw.ResponseWriter).2 :=
  congrArg Prod.snd (exec_asWriter U p rw)

/-- A handler body that makes no type assertion runs on a writer as on the
same writer seen as a plain `http.ResponseWriter`. -/
theorem exec_plain_of_interfaceOnly {ω : Type} (U : http.ResponseWriter ω) (p : Prog) (s : ω)
    (h : p.interfaceOnly) : p.exec U.plain s = p.exec U s := by
  induction p generalizing s with
  | ret r => rfl
  | panic v => rfl
  | WriteHeader code k ih => exact ih _ h
  | Write b k ih => exact ih _ _ (h _)
  | Header k ih => exact ih _ _ (h _)
  | putHeader hd k ih => exact ih _ h
  | implements m k ih => exact h.elim
  | call m arg k ih => exact h.elim

/-- A writer without further methods is a plain `http.ResponseWriter`. -/
theorem plain_eq_self {ω : Type} (U : http.ResponseWriter ω) (h : ∀ m, U.method m = none) :
    U.plain = U := by
  cases U with
  | mk hd ph wr wh me =>
    have : me = fun _ => none := funext h
    subst this
    rfl

theorem underlying_plain {σ : Type} (W : http.ResponseWriter σ) :
    underlying W.plain = (underlying W).plain := rfl

theorem underlying_WriteHeader {σ : Type} (W : http.ResponseWriter σ) (w : World σ) (code : Int) :
    (underlying W).WriteHeader w code =
      ⟨W.WriteHeader w.w code, w.events ++ [Event.writeHeader code]⟩ := rfl

theorem underlying_Write {σ : Type} (W : http.ResponseWriter σ) (w : World σ) (b : Bytes) :
    (underlying W).Write w b =
      (⟨(W.Write w.w b).1, w.events ++ [Event.write b]⟩, (W.Write w.w b).2) := rfl

theorem underlying_Header {σ : Type} (W : http.ResponseWriter σ) (w : World σ) :
    (underlying W).Header w = W.Header w.w := rfl

theorem underlying_putHeader {σ : Type} (W : http.ResponseWriter σ) (w : World σ)
    (h : http.Header) :
    (underlying W).putHeader w h = ⟨W.putHeader w.w h, w.events⟩ := rfl

theorem underlying_method {σ : Type} (W : http.ResponseWriter σ) (m : String) :
    (underlying W).method m = (W.method m).map fun f s arg =>
      (⟨(f s.w arg).1, s.events ++ [Event.method m arg]⟩, (f s.w arg).2) := rfl

/-- The events already observed are kept in front of the events of a run, and
the run does not depend on them. -/
theorem exec_underlying_append {σ : Type} (W : http.ResponseWriter σ) (p : Prog) (s : σ)
    (es : List Event) :
    p.exec (underlying W) ⟨s, es⟩ =
      (⟨(p.exec (underlying W) ⟨s, []⟩).1.w, es ++ (p.exec (underlying W) ⟨s, []⟩).1.events⟩,
        (p.exec (underlying W) ⟨s, []⟩).2) := by
  induction p generalizing s es with
  | ret r => simp [Prog.exec]
  | panic v => simp [Prog.exec]
  | WriteHeader code k ih =>
    simp only [Prog.exec, underlying_WriteHeader, List.nil_append]
    rw [ih, ih _ [Event.writeHeader code]]
    simp
  | Write b k ih =>
    simp only [Prog.exec, underlying_Write, List.nil_append]
    rw [ih, ih _ _ [Event.write b]]
    simp
  | Header k ih =>
    simp only [Prog.exec, underlying_Header]
    exact ih _ _ _
  | putHeader h k ih =>
    simp only [Prog.exec, underlying_putHeader]
    exact ih _ _
  | implements m k ih =>
    simp only [Prog.exec]
    exact ih _ _ _
  | call m arg k ih =>
    simp only [Prog.exec, underlying_method]
    cases W.method m with
    | none => simp
    | some f =>
      simp only [Option.map_some', List.nil_append]
      rw [ih, ih _ _ [Event.method m arg]]
      simp

/-- A handler run on the underlying writer seen as a plain
`http.ResponseWriter` adds only `WriteHeader` and `Write` calls to the
events. -/
theorem exec_underlying_isCall {σ : Type} (W : http.ResponseWriter σ) (p : Prog) (w : World σ)
    (h : ∀ e ∈ w.events, e.isCall = true) :
    ∀ e ∈ (p.exec (underlying W.plain) w).1.events, e.isCall = true := by
  induction p generalizing w with
  | ret r => simpa [Prog.exec] using h
  | panic v => simpa [Prog.exec] using h
  | WriteHeader code k ih =>
    apply ih
    intro e he
    simp only [underlying_WriteHeader, List.mem_append, List.mem_singleton] at he
    rcases he with he | rfl
    · exact h e he
    · rfl
  | Write b k ih =>
    apply ih
    intro e he
    simp only [underlying_Write, List.mem_append, List.mem_singleton] at he
    rcases he with he | rfl
    · exact h e he
    · rfl
  | Header k ih => exact ih _ _ h
  | putHeader hd k ih => exact ih _ h
  | implements m k ih => exact ih _ _ h
  | call m arg k ih => exact h

theorem calls_eq_self {es : List Event} (h : ∀ e ∈ es, e.isCall = true) : calls es = es :=
  List.filter_eq_self.2 h

theorem invocations_eq_nil {es : List Event} (h : ∀ e ∈ es, e.isCall = true) :
    invocations es = [] := by
  induction es with
  | nil => rfl
  | cons e es ih =>
    have he := h e (List.mem_cons_self _ _)
    have ih := ih fun x hx => h x (List.mem_cons_of_mem _ hx)
    cases e <;> simp_all [invocations, Event.isCall]

theorem logLines_eq_nil {es : List Event} (h : ∀ e ∈ es, e.isCall = true) :
    logLines es = [] := by
  induction es with
  | nil => rfl
  | cons e es ih =>
    have he := h e (List.mem_cons_self _ _)
    have ih := ih fun x hx => h x (List.mem_cons_of_mem _ hx)
    cases e <;> simp_all [logLines, Event.isCall]

/-- The events of a handler run on the underlying writer seen as a plain
`http.ResponseWriter`, started with nothing observed, are `WriteHeader` and
`Write` calls on that writer. -/
theorem exec_underlying_nil_isCall {σ : Type} (W : http.ResponseWriter σ) (p : Prog) (s : σ) :
    ∀ e ∈ (p.exec (underlying W.plain) ⟨s, []⟩).1.events, e.isCall = true :=
  exec_underlying_isCall W p ⟨s, []⟩ (by simp)

/-- What `loggingMiddleware` does, in terms of a run of `next` on the
underlying writer seen as a plain `http.ResponseWriter`, started with nothing
observed. -/
theorem loggingMiddleware_eq {σ : Type} (W : http.ResponseWriter σ) (next : http.Handler)
    (start finish : Int) (r : http.Request) (w : World σ) :
    ∃ status : Int,
      loggingMiddleware W next start finish r w =
        match (next r).exec (underlying W.plain) ⟨w.w, []⟩ with
        | (d, none) =>
          (⟨d.w, w.events ++
            [.log ⟨"新请求: %s %s %s\n", [.str r.RemoteAddr, .str r.Method, .str r.URL.Path]⟩,
              .log ⟨"请求头: %v\n", [.header r.Header]⟩, .serveHTTP r] ++ d.events⟩, none)
        | (d, some r') =>
          (⟨d.w, w.events ++
            [.log ⟨"新请求: %s %s %s\n", [.str r.RemoteAddr, .str r.Method, .str r.URL.Path]⟩,
              .log ⟨"请求头: %v\n", [.header r.Header]⟩, .serveHTTP r] ++ d.events ++
            [.returned, .log ⟨"请求完成: %s %s %s - 状态码: %d - 耗时: %v\n",
              [.str r'.RemoteAddr, .str r'.Method, .str r'.URL.Path, .int status,
                .duration (finish - start)]⟩]⟩, some r') := by
  rcases hd : (next r).exec (underlying W.plain) ⟨w.w, []⟩ with ⟨d, o'⟩
  unfold loggingMiddleware
  simp only [log.Printf]
  refine ⟨((next r).exec (responseWrapper.asWriter (underlying W))
    ⟨⟨w.w, w.events ++
      [.log ⟨"新请求: %s %s %s\n", [.str r.RemoteAddr, .str r.Method, .str r.URL.Path]⟩] ++
      [.log ⟨"请求头: %v\n", [.header r.Header]⟩] ++ [.serveHTTP r]⟩, http.StatusOK⟩).1.statusCode, ?_⟩
  split
  all_goals
    rename_i heq
    have h := exec_asWriter_of_eq _ _ _ _ heq
    dsimp only at h
    rw [← underlying_plain, exec_underlying_append, hd] at h
    simp only [Prod.mk.injEq] at h
    obtain ⟨h1, rfl⟩ := h
    rw [heq]
    simp [← h1]

/-- C1 fails as stated.  `copyHandler` copies as `io.Copy` does; called
directly on a writer that is an `io.ReaderFrom` it calls `ReadFrom` and makes
no `Write` call, while through `loggingMiddleware` the wrapper hides
`ReadFrom` and the same bytes reach the writer in a `Write` call. -/
theorem loggingMiddleware_hides_ReadFrom :
    calls (loggingMiddleware readerFromWriter copyHandler 3 8 sampleRequest
      ⟨NetResponse.fresh, []⟩).1.events = [.write [104, 105, 10]] ∧
    ((copyHandler sampleRequest).exec (underlying readerFromWriter)
      ⟨NetResponse.fresh, []⟩).1.events = [.method "ReadFrom" [104, 105, 10]] ∧
    calls ((copyHandler sampleRequest).exec (underlying readerFromWriter)
      ⟨NetResponse.fresh, []⟩).1.events = [] := by
  refine ⟨?_, ?_, ?_⟩ <;> decide

/-- C1, amended.  When the underlying writer has no method beyond `Header`,
`Write` and `WriteHeader`, or `next` makes no type assertion on its writer,
`loggingMiddleware` is a transparent decorator: serving `r` through
`loggingMiddleware(next)` enters `next.ServeHTTP` exactly once, with the same
request `r`; the `WriteHeader` and `Write` calls that reach the underlying
writer are, in order, exactly the calls `next` issues when it is run on that
writer directly; and the writer and the outcome of `next` end up the same. -/
theorem loggingMiddleware_transparent {σ : Type} (W : http.ResponseWriter σ)
    (next : http.Handler) (start finish : Int) (r : http.Request) (s : σ)
    (h : (∀ m, W.method m = none) ∨ (next r).interfaceOnly) :
    invocations (loggingMiddleware W next start finish r ⟨s, []⟩).1.events = [r] ∧
    calls (loggingMiddleware W next start finish r ⟨s, []⟩).1.events =
      ((next r).exec (underlying W) ⟨s, []⟩).1.events ∧
    (loggingMiddleware W next start finish r ⟨s, []⟩).1.w =
      ((next r).exec (underlying W) ⟨s, []⟩).1.w ∧
    (loggingMiddleware W next start finish r ⟨s, []⟩).2 =
      ((next r).exec (underlying W) ⟨s, []⟩).2 := by
  have hrun : (next r).exec (underlying W.plain) ⟨s, []⟩ =
      (next r).exec (underlying W) ⟨s, []⟩ := by
    rcases h with h | h
    · rw [plain_eq_self W h]
    · rw [underlying_plain]
      exact exec_plain_of_interfaceOnly _ _ _ h
  obtain ⟨status, h⟩ := loggingMiddleware_eq W next start finish r ⟨s, []⟩
  have hc := exec_underlying_nil_isCall W (next r) s
  rw [h, ← hrun]
  generalize (next r).exec (underlying W.plain) ⟨s, []⟩ = x at hc ⊢
  obtain ⟨d, o⟩ := x
  have hi := invocations_eq_nil hc
  have hcs := calls_eq_self hc
  cases o
  · refine ⟨?_, ?_, rfl, rfl⟩
    · simpa [invocations] using hi
    · simpa [calls, Event.isCall] using hcs
  · refine ⟨?_, ?_, rfl, rfl⟩
    · simpa [invocations] using hi
    · simpa [calls, Event.isCall] using hcs

/-- Witness of the amended C1, on the writer `readerFromWriter` and a handler
that makes no type assertion. -/
theorem loggingMiddleware_transparent_witness :
    ((∀ m, readerFromWriter.method m = none) ∨ (okHandler sampleRequest).interfaceOnly) ∧
    invocations (loggingMiddleware readerFromWriter okHandler 3 8 sampleRequest
      ⟨NetResponse.fresh, []⟩).1.events = [sampleRequest] ∧
    calls (loggingMiddleware readerFromWriter okHandler 3 8 sampleRequest
      ⟨NetResponse.fresh, []⟩).1.events =
      ((okHandler sampleRequest).exec (underlying readerFromWriter)
        ⟨NetResponse.fresh, []⟩).1.events ∧
    (loggingMiddleware readerFromWriter okHandler 3 8 sampleRequest
      ⟨NetResponse.fresh, []⟩).1.w =
      ((okHandler sampleRequest).exec (underlying readerFromWriter)
        ⟨NetResponse.fresh, []⟩).1.w ∧
    (loggingMiddleware readerFromWriter okHandler 3 8 sampleRequest
      ⟨NetResponse.fresh, []⟩).2 =
      ((okHandler sampleRequest).exec (underlying readerFromWriter)
        ⟨NetResponse.fresh, []⟩).2 :=
  ⟨Or.inr fun _ => trivial,
    loggingMiddleware_transparent readerFromWriter okHandler 3 8 sampleRequest
      NetResponse.fresh (Or.inr fun _ => trivial)⟩

/-- C5. When `next`, called on the wrapper, returns normally, leaving the
request as `r1`, the middleware has produced exactly three log lines: the
request-start line and the request-header line before `next.ServeHTTP` is
entered, and the completion line after it has returned; everything in between
is a `WriteHeader` or `Write` call of `next` on the writer.  The completion
line reports `RemoteAddr`, `Method` and `URL.Path` of the request as `next`
left it, so the same three values as the request-start line when `next` did
not modify the request. -/
theorem loggingMiddleware_log_lines {σ : Type} (W : http.ResponseWriter σ)
    (next : http.Handler) (start finish : Int) (r r1 : http.Request) (w : World σ)
    (hret : ((next r).exec (responseWrapper.asWriter (underlying W))
      ⟨w, http.StatusOK⟩).2 = some r1) :
    ∃ (first second last : LogLine) (cs : List Event),
      (loggingMiddleware W next start finish r w).1.events =
        w.events ++ [.log first, .log second, .serveHTTP r] ++ cs ++ [.returned, .log last] ∧
      (∀ e ∈ cs, e.isCall = true) ∧
      logLines (loggingMiddleware W next start finish r w).1.events =
        logLines w.events ++ [first, second, last] ∧
      first = ⟨"新请求: %s %s %s\n", [.str r.RemoteAddr, .str r.Method, .str r.URL.Path]⟩ ∧
      second = ⟨"请求头: %v\n", [.header r.Header]⟩ ∧
      last.format = "请求完成: %s %s %s - 状态码: %d - 耗时: %v\n" ∧
      last.args.take 3 = [.str r1.RemoteAddr, .str r1.Method, .str r1.URL.Path] ∧
      (r1 = r → last.args.take 3 = first.args) := by
  obtain ⟨status, h⟩ := loggingMiddleware_eq W next start finish r w
  have hc := exec_underlying_nil_isCall W (next r) w.w
  rw [exec_asWriter_outcome, ← underlying_plain] at hret
  have hp := exec_underlying_append W.plain (next r) w.w w.events
  rw [hp] at hret
  rw [h]
  generalize (next r).exec (underlying W.plain) ⟨w.w, []⟩ = x at hc hret ⊢
  obtain ⟨d, o⟩ := x
  simp only at hret
  subst hret
  refine ⟨_, _, _, d.events, rfl, hc, ?_, rfl, rfl, rfl, rfl, ?_⟩
  · simp only [logLines, List.filterMap_append]
    have := logLines_eq_nil hc
    simp only [logLines] at this
    simp [this]
  · rintro rfl
    rfl

/-- C6. Starting from a wrapper created as in `loggingMiddleware`
(`statusCode` 200), after `WriteHeader` calls with the codes `cs` the
`statusCode` is the last code, or 200 when there was no call; the embedded
writer has received exactly these calls, each code once and in order, and the
embedded writer is the only other field that is touched; a single call hands
its code to the embedded writer; `Write` leaves `statusCode` as it is. -/
theorem responseWrapper_WriteHeader_seq {σ : Type} (W : http.ResponseWriter σ) (w : World σ)
    (cs : List Int) :
    (cs.foldl (responseWrapper.WriteHeader (underlying W)) ⟨w, http.StatusOK⟩).statusCode =
      cs.getLast?.getD http.StatusOK ∧
    (cs.foldl (responseWrapper.WriteHeader (underlying W)) ⟨w, http.StatusOK⟩).ResponseWriter.events =
      w.events ++ cs.map Event.writeHeader ∧
    (cs.foldl (responseWrapper.WriteHeader (underlying W)) ⟨w, http.StatusOK⟩).ResponseWriter.w =
      cs.foldl W.WriteHeader w.w ∧
    (∀ (rw : responseWrapper (World σ)) (code : Int),
      responseWrapper.WriteHeader (underlying W) rw code =
        ⟨(underlying W).WriteHeader rw.ResponseWriter code, code⟩) ∧
    (∀ (rw : responseWrapper (World σ)) (b : Bytes),
      (responseWrapper.Write (underlying W) rw b).1.statusCode = rw.statusCode) := by
  refine ⟨?_, ?_, ?_, fun _ _ => rfl, fun _ _ => rfl⟩
  · generalize http.StatusOK = c0
    induction cs generalizing w c0 with
    | nil => rfl
    | cons c cs ih =>
      rw [List.foldl_cons]
      have := ih ((underlying W).WriteHeader w c) c
      simp only [responseWrapper.WriteHeader] at this ⊢
      rw [this]
      cases cs with
      | nil => simp
      | cons c1 cs => simp [List.getLast?_cons_cons, List.getLast?_eq_getLast]
  · generalize http.StatusOK = c0
    induction cs generalizing w c0 with
    | nil => simp
    | cons c cs ih =>
      rw [List.foldl_cons]
      have := ih ((underlying W).WriteHeader w c) c
      simp only [responseWrapper.WriteHeader] at this ⊢
      rw [this]
      simp [underlying_WriteHeader]
  · generalize http.StatusOK = c0
    induction cs generalizing w c0 with
    | nil => rfl
    | cons c cs ih =>
      rw [List.foldl_cons]
      have := ih ((underlying W).WriteHeader w c) c
      simp only [responseWrapper.WriteHeader] at this ⊢
      rw [this]
      simp [underlying_WriteHeader]

/-- C7. Each call of the `ClosedConnection` callback logs exactly one line and
does nothing else; the line is the error line, carrying the error value, if
and only if `err` is not nil, and the normal-close line if and only if `err`
is nil. -/
theorem ClosedConnection_one_line {σ : Type} (err : Option String) (w : World σ) :
    ∃ l : LogLine,
      ClosedConnection err w = ⟨w.w, w.events ++ [Event.log l]⟩ ∧
      (∀ e : String, l = ⟨"连接关闭，错误: %v\n", [.error e]⟩ ↔ err = some e) ∧
      (l = ⟨"连接正常关闭\n", []⟩ ↔ err = none) := by
  cases err with
  | none => exact ⟨_, rfl, by simp, by simp⟩
  | some e => exact ⟨_, rfl, by simp, by simp⟩

/-- Witness of C5 on `okHandler`. -/
theorem loggingMiddleware_log_lines_witness :
    ((okHandler sampleRequest).exec (responseWrapper.asWriter (underlying netHTTP))
      ⟨⟨NetResponse.fresh, []⟩, http.StatusOK⟩).2 = some sampleRequest ∧
    ∃ (first second last : LogLine) (cs : List Event),
      (loggingMiddleware netHTTP okHandler 3 8 sampleRequest ⟨NetResponse.fresh, []⟩).1.events =
        [] ++ [.log first, .log second, .serveHTTP sampleRequest] ++ cs ++
          [.returned, .log last] ∧
      (∀ e ∈ cs, e.isCall = true) ∧
      logLines (loggingMiddleware netHTTP okHandler 3 8 sampleRequest
        ⟨NetResponse.fresh, []⟩).1.events = logLines [] ++ [first, second, last] ∧
      first = ⟨"新请求: %s %s %s\n", [.str sampleRequest.RemoteAddr, .str sampleRequest.Method,
        .str sampleRequest.URL.Path]⟩ ∧
      second = ⟨"请求头: %v\n", [.header sampleRequest.Header]⟩ ∧
      last.format = "请求完成: %s %s %s - 状态码: %d - 耗时: %v\n" ∧
      last.args.take 3 = [.str sampleRequest.RemoteAddr, .str sampleRequest.Method,
        .str sampleRequest.URL.Path] ∧
      (sampleRequest = sampleRequest → last.args.take 3 = first.args) :=
  ⟨rfl, loggingMiddleware_log_lines netHTTP okHandler 3 8 sampleRequest sampleRequest
    ⟨NetResponse.fresh, []⟩ rfl⟩

/-- C2, at a handler that calls `WriteHeader(404)` and then `WriteHeader(500)`:
the completion line of `loggingMiddleware` prints status 500, while the
underlying writer, following `net/http`, has sent 404 to the client. -/
theorem loggingMiddleware_logs_last_code :
    logLines (loggingMiddleware netHTTP lateErrorHandler 3 8 sampleRequest
      ⟨NetResponse.fresh, []⟩).1.events =
      [⟨"新请求: %s %s %s\n", [.str "[::1]:50000", .str "GET", .str "/index.html"]⟩,
       ⟨"请求头: %v\n", [.header [("Accept", ["*/*"])]]⟩,
       ⟨"请求完成: %s %s %s - 状态码: %d - 耗时: %v\n",
         [.str "[::1]:50000", .str "GET", .str "/index.html", .int 500, .duration 5]⟩] ∧
    (loggingMiddleware netHTTP lateErrorHandler 3 8 sampleRequest
      ⟨NetResponse.fresh, []⟩).1.w.sent = 404 ∧
    calls (loggingMiddleware netHTTP lateErrorHandler 3 8 sampleRequest
      ⟨NetResponse.fresh, []⟩).1.events = [.writeHeader 404, .writeHeader 500] :=
  ⟨rfl, rfl, rfl⟩

end QuicServer

namespace Transport

/-! ## Stream reassembly -/

theorem lookup_filter_le (l : List (Nat × Nat)) (n k : Nat) :
    (l.filter fun e => decide (n ≤ e.1)).lookup k = if n ≤ k then l.lookup k else none := by
  induction l with
  | nil => simp
  | cons e l ih =>
    obtain ⟨a, x⟩ := e
    by_cases ha : n ≤ a
    · rw [List.filter_cons_of_pos (by simpa using ha)]
      by_cases hk : k = a
      · subst hk
        simp [List.lookup_cons, ha]
      · have : (k == a) = false := by simpa using hk
        simp only [List.lookup_cons, this, ih]
    · rw [List.filter_cons_of_neg (by simpa using ha)]
      by_cases hk : k = a
      · subst hk
        simp [ih, ha]
      · have : (k == a) = false := by simpa using hk
        simp only [List.lookup_cons, this, ih]

theorem insertByte_receiveOffset (b : ReassemblyBuffer) (off x : Nat) :
    (b.insertByte off x).receiveOffset = b.receiveOffset := by
  unfold ReassemblyBuffer.insertByte
  split
  · rfl
  · split <;> rfl

theorem insertByte_lookup (b : ReassemblyBuffer) (off x k y : Nat)
    (h : (b.insertByte off x).pending.lookup k = some y) :
    b.pending.lookup k = some y ∨ (k = off ∧ y = x) := by
  unfold ReassemblyBuffer.insertByte at h
  split at h
  · exact Or.inl h
  · split at h
    · exact Or.inl h
    · by_cases hk : k = off
      · subst hk
        simp [List.lookup_cons] at h
        exact Or.inr ⟨rfl, h.symm⟩
      · have : (k == off) = false := by simpa using hk
        simp only [List.lookup_cons, this] at h
        exact Or.inl h

theorem insertByte_has_mono (b : ReassemblyBuffer) (off x i : Nat) (h : b.has i) :
    (b.insertByte off x).has i := by
  unfold ReassemblyBuffer.insertByte
  split
  · exact h
  · split
    · exact h
    · rcases h with h | h
      · exact Or.inl h
      · refine Or.inr ?_
        by_cases hk : i = off
        · subst hk
          simp [List.lookup_cons]
        · have : (i == off) = false := by simpa using hk
          simpa only [List.lookup_cons, this] using h

theorem insertByte_has_self (b : ReassemblyBuffer) (off x : Nat) :
    (b.insertByte off x).has off := by
  unfold ReassemblyBuffer.insertByte
  split
  · next h => exact Or.inl h
  · split
    · next h => exact Or.inr h
    · exact Or.inr (by simp [List.lookup_cons])

theorem insertBytes_receiveOffset (b : ReassemblyBuffer) (off : Nat) (xs : List Nat) :
    (b.insertBytes off xs).receiveOffset = b.receiveOffset := by
  induction xs generalizing b off with
  | nil => rfl
  | cons x xs ih => simp only [ReassemblyBuffer.insertBytes, ih, insertByte_receiveOffset]

theorem insertBytes_lookup (sent : List Nat) (b : ReassemblyBuffer) (off : Nat) (xs : List Nat)
    (hb : ∀ k y, b.pending.lookup k = some y → sent[k]? = some y)
    (hx : ∀ i, i < xs.length → sent[off + i]? = xs[i]?) :
    ∀ k y, (b.insertBytes off xs).pending.lookup k = some y → sent[k]? = some y := by
  induction xs generalizing b off with
  | nil => exact hb
  | cons x xs ih =>
    apply ih (b.insertByte off x) (off + 1)
    · intro k y h
      rcases insertByte_lookup b off x k y h with h | ⟨rfl, rfl⟩
      · exact hb k y h
      · simpa using hx 0 (by simp)
    · intro i hi
      have := hx (i + 1) (by simpa using hi)
      simpa [Nat.add_assoc, Nat.add_comm 1 i] using this

theorem insertBytes_has_mono (b : ReassemblyBuffer) (off : Nat) (xs : List Nat) (i : Nat)
    (h : b.has i) : (b.insertBytes off xs).has i := by
  induction xs generalizing b off with
  | nil => exact h
  | cons x xs ih => exact ih _ _ (insertByte_has_mono b off x i h)

theorem insertBytes_has_range (b : ReassemblyBuffer) (off : Nat) (xs : List Nat) (i : Nat)
    (h1 : off ≤ i) (h2 : i < off + xs.length) : (b.insertBytes off xs).has i := by
  induction xs generalizing b off with
  | nil => simp at h2; omega
  | cons x xs ih =>
    by_cases hi : i = off
    · subst hi
      exact insertBytes_has_mono (b.insertByte i x) (i + 1) xs i (insertByte_has_self b i x)
    · exact ih _ _ (by omega) (by simp at h2; omega)

theorem insert_receiveOffset (b : ReassemblyBuffer) (f : StreamFrame) :
    (b.insert f).receiveOffset = b.receiveOffset := by
  unfold ReassemblyBuffer.insert
  split <;> simp [insertBytes_receiveOffset]

theorem insert_pending (b : ReassemblyBuffer) (f : StreamFrame) :
    (b.insert f).pending = (b.insertBytes f.offset f.data).pending := by
  unfold ReassemblyBuffer.insert
  split <;> rfl

theorem insert_has_mono (b : ReassemblyBuffer) (f : StreamFrame) (i : Nat) (h : b.has i) :
    (b.insert f).has i := by
  have := insertBytes_has_mono b f.offset f.data i h
  simpa only [ReassemblyBuffer.has, insert_receiveOffset, insert_pending,
    insertBytes_receiveOffset] using this

theorem insert_has_range (b : ReassemblyBuffer) (f : StreamFrame) (i : Nat)
    (h1 : f.offset ≤ i) (h2 : i < f.offset + f.data.length) : (b.insert f).has i := by
  have := insertBytes_has_range b f.offset f.data i h1 h2
  simpa only [ReassemblyBuffer.has, insert_receiveOffset, insert_pending,
    insertBytes_receiveOffset] using this

/-- The bytes `contiguous` returns are the bytes sent from `off` on. -/
theorem contiguous_eq_take (sent : List Nat) (pending : List (Nat × Nat))
    (hp : ∀ k y, pending.lookup k = some y → sent[k]? = some y) (fuel off : Nat)
    (hoff : off ≤ sent.length) :
    contiguous pending fuel off = (sent.drop off).take (contiguous pending fuel off).length ∧
      off + (contiguous pending fuel off).length ≤ sent.length := by
  induction fuel generalizing off with
  | zero => simpa [contiguous] using hoff
  | succ fuel ih =>
    unfold contiguous
    cases h : pending.lookup off with
    | none => simpa using hoff
    | some x =>
      have hx := hp off x h
      obtain ⟨hlt, hget⟩ := List.getElem?_eq_some_iff.1 hx
      obtain ⟨ih1, ih2⟩ := ih (off + 1) hlt
      simp only [List.length_cons]
      refine ⟨?_, by omega⟩
      rw [List.drop_eq_getElem_cons hlt, List.take_succ_cons, hget, ← ih1]

/-- With enough fuel `contiguous` runs up to the first gap. -/
theorem contiguous_length (pending : List (Nat × Nat)) (fuel off n : Nat)
    (hfuel : n ≤ fuel) (hhas : ∀ i, off ≤ i → i < off + n → (pending.lookup i).isSome = true)
    (hgap : pending.lookup (off + n) = none) :
    (contiguous pending fuel off).length = n := by
  induction n generalizing fuel off with
  | zero =>
    cases fuel with
    | zero => rfl
    | succ fuel => simp only [Nat.add_zero] at hgap; simp [contiguous, hgap]
  | succ n ih =>
    cases fuel with
    | zero => omega
    | succ fuel =>
      unfold contiguous
      have h0 := hhas off (Nat.le_refl _) (by omega)
      obtain ⟨x, hx⟩ := Option.isSome_iff_exists.1 h0
      simp only [hx, List.length_cons, Nat.add_right_cancel_iff]
      apply ih fuel (off + 1) (by omega)
      · intro i hi1 hi2
        exact hhas i (by omega) (by omega)
      · rw [← hgap]; congr 1; omega

/-- As many buffered entries as there are consecutive buffered offsets. -/
theorem length_ge_of_lookup (pending : List (Nat × Nat)) (off n : Nat)
    (hhas : ∀ i, off ≤ i → i < off + n → (pending.lookup i).isSome = true) :
    n ≤ pending.length := by
  have hsub : List.range' off n ⊆ pending.map Prod.fst := by
    intro i hi
    rw [List.mem_range'_1] at hi
    obtain ⟨x, hx⟩ := Option.isSome_iff_exists.1 (hhas i hi.1 hi.2)
    have hmem : (i, x) ∈ pending := by
      clear hhas hi
      induction pending with
      | nil => simp at hx
      | cons e l ih =>
        obtain ⟨a, y⟩ := e
        by_cases hk : i = a
        · subst hk
          simp [List.lookup_cons] at hx
          subst hx
          exact List.mem_cons_self _ _
        · have : (i == a) = false := by simpa using hk
          simp only [List.lookup_cons, this] at hx
          exact List.mem_cons_of_mem _ (ih hx)
    exact List.mem_map.2 ⟨(i, x), hmem, rfl⟩
  have := ((List.nodup_range' off n).subperm hsub).length_le
  simpa using this

theorem read_data_nil (b : ReassemblyBuffer)
    (h : contiguous b.pending b.pending.length b.receiveOffset = []) :
    b.read = (b, if b.finalSize = some b.receiveOffset then .Finished else .WouldBlock) ∧
      b.read.2.data = [] := by
  unfold ReassemblyBuffer.read
  simp only [h, if_true]
  refine ⟨trivial, ?_⟩
  split <;> rfl

theorem read_data_cons (b : ReassemblyBuffer)
    (h : contiguous b.pending b.pending.length b.receiveOffset ≠ []) :
    b.read =
      ({ b with
          receiveOffset :=
            b.receiveOffset + (contiguous b.pending b.pending.length b.receiveOffset).length
          pending := b.pending.filter fun e => decide (b.receiveOffset +
            (contiguous b.pending b.pending.length b.receiveOffset).length ≤ e.1) },
        .bytes (contiguous b.pending b.pending.length b.receiveOffset)) := by
  unfold ReassemblyBuffer.read
  simp only [h, if_false]

/-- Whatever `read` returns, it is the run of buffered bytes at the receive
offset. -/
theorem read_data (b : ReassemblyBuffer) :
    b.read.2.data = contiguous b.pending b.pending.length b.receiveOffset := by
  by_cases h : contiguous b.pending b.pending.length b.receiveOffset = []
  · rw [(read_data_nil b h).2, h]
  · rw [read_data_cons b h]; rfl

theorem read_has_mono (b : ReassemblyBuffer) (i : Nat) (h : b.has i) : b.read.1.has i := by
  by_cases hc : contiguous b.pending b.pending.length b.receiveOffset = []
  · rw [(read_data_nil b hc).1]; exact h
  · rw [read_data_cons b hc]
    simp only [ReassemblyBuffer.has, lookup_filter_le]
    rcases h with h | h
    · exact Or.inl (by omega)
    · by_cases hi : b.receiveOffset +
          (contiguous b.pending b.pending.length b.receiveOffset).length ≤ i
      · exact Or.inr (by simpa [hi] using h)
      · exact Or.inl (by omega)

theorem step_read_agrees (s : Receiver) (sent : List Nat) (h : s.Agrees sent) :
    (s.step .read).Agrees sent := by
  obtain ⟨h1, h2, h3⟩ := h
  obtain ⟨c1, c2⟩ := contiguous_eq_take sent s.buffer.pending h3 s.buffer.pending.length
    s.buffer.receiveOffset h2
  by_cases hc : contiguous s.buffer.pending s.buffer.pending.length s.buffer.receiveOffset = []
  · have := read_data_nil s.buffer hc
    refine ⟨?_, ?_, ?_⟩
    · show s.delivered ++ s.buffer.read.2.data = sent.take s.buffer.read.1.receiveOffset
      rw [this.2, this.1, List.append_nil]; exact h1
    · show s.buffer.read.1.receiveOffset ≤ sent.length
      rw [this.1]; exact h2
    · show ∀ k x, s.buffer.read.1.pending.lookup k = some x → sent[k]? = some x
      rw [this.1]; exact h3
  · have hr := read_data_cons s.buffer hc
    refine ⟨?_, ?_, ?_⟩
    · show s.delivered ++ s.buffer.read.2.data = sent.take s.buffer.read.1.receiveOffset
      rw [read_data, hr]
      simp only
      rw [List.take_add, ← c1, h1]
    · show s.buffer.read.1.receiveOffset ≤ sent.length
      rw [hr]
      exact c2
    · show ∀ k x, s.buffer.read.1.pending.lookup k = some x → sent[k]? = some x
      rw [hr]
      intro k x hk
      simp only [lookup_filter_le] at hk
      split at hk
      · exact h3 k x hk
      · cases hk

theorem step_agrees (s : Receiver) (sent : List Nat) (e : StreamEvent) (h : s.Agrees sent)
    (he : e.carries sent) : (s.step e).Agrees sent := by
  cases e with
  | read => exact step_read_agrees s sent h
  | frame f =>
    obtain ⟨h1, h2, h3⟩ := h
    refine ⟨?_, ?_, ?_⟩
    · simp only [Receiver.step, insert_receiveOffset]; exact h1
    · simp only [Receiver.step, insert_receiveOffset]; exact h2
    · simp only [Receiver.step, insert_pending]
      exact insertBytes_lookup sent s.buffer f.offset f.data h3 he

theorem step_has (s : Receiver) (e : StreamEvent) (i : Nat)
    (h : s.buffer.has i ∨ e.covers i) : (s.step e).buffer.has i := by
  cases e with
  | read =>
    rcases h with h | h
    · exact read_has_mono s.buffer i h
    · exact h.elim
  | frame f =>
    rcases h with h | h
    · exact insert_has_mono s.buffer f i h
    · exact insert_has_range s.buffer f i h.1 h.2

theorem foldl_agrees (sent : List Nat) (evs : List StreamEvent) (s : Receiver)
    (h : s.Agrees sent) (he : ∀ e ∈ evs, e.carries sent) :
    (evs.foldl Receiver.step s).Agrees sent := by
  induction evs generalizing s with
  | nil => exact h
  | cons e evs ih =>
    exact ih _ (step_agrees s sent e h (he e (List.mem_cons_self _ _)))
      fun x hx => he x (List.mem_cons_of_mem _ hx)

theorem foldl_has (evs : List StreamEvent) (s : Receiver) (i : Nat)
    (h : s.buffer.has i ∨ ∃ e ∈ evs, e.covers i) :
    (evs.foldl Receiver.step s).buffer.has i := by
  induction evs generalizing s with
  | nil =>
    rcases h with h | ⟨e, he, _⟩
    · exact h
    · cases he
  | cons e evs ih =>
    apply ih
    rcases h with h | ⟨x, hx, hc⟩
    · exact Or.inl (step_has s e i (Or.inl h))
    · rcases List.mem_cons.1 hx with rfl | hx
      · exact Or.inl (step_has s x i (Or.inr hc))
      · exact Or.inr ⟨x, hx, hc⟩

theorem empty_agrees (sent : List Nat) :
    Receiver.Agrees { buffer := ReassemblyBuffer.empty, delivered := [] } sent :=
  ⟨by simp [ReassemblyBuffer.empty], by simp [ReassemblyBuffer.empty],
    by simp [ReassemblyBuffer.empty]⟩

/-- C3. Stream reassembly is invariant under reordering and duplication.
Let frames that each carry bytes of `sent` at their offsets arrive in any
order, with any duplicates and overlaps, interleaved with reads, and let them
together cover `sent` from offset 0.  Then what `read` has returned is at
every moment a beginning of `sent`, and after one more `read` it is exactly
`sent`: every byte once, in send order. -/
theorem reassembly_in_send_order (sent : List Nat) (evs : List StreamEvent)
    (hcarry : ∀ e ∈ evs, e.carries sent) (hcover : covers evs sent) :
    (∀ n, (Receiver.run (evs.take n)).delivered <+: sent) ∧
    (Receiver.run (evs ++ [StreamEvent.read])).delivered = sent := by
  constructor
  · intro n
    have h := foldl_agrees sent (evs.take n) _ (empty_agrees sent)
      fun e he => hcarry e (List.mem_of_mem_take he)
    unfold Receiver.run
    rw [h.delivered_eq]
    exact List.take_prefix _ _
  · have h := foldl_agrees sent evs _ (empty_agrees sent) hcarry
    have hhas : ∀ i, i < sent.length →
        (evs.foldl Receiver.step ⟨ReassemblyBuffer.empty, []⟩).buffer.has i :=
      fun i hi => foldl_has evs _ i (Or.inr (hcover i hi))
    unfold Receiver.run
    rw [List.foldl_append]
    generalize evs.foldl Receiver.step ⟨ReassemblyBuffer.empty, []⟩ = s at h hhas
    obtain ⟨h1, h2, h3⟩ := h
    show s.delivered ++ s.buffer.read.2.data = sent
    rw [read_data]
    have hsome : ∀ i, s.buffer.receiveOffset ≤ i →
        i < s.buffer.receiveOffset + (sent.length - s.buffer.receiveOffset) →
        (s.buffer.pending.lookup i).isSome = true := by
      intro i hi1 hi2
      rcases hhas i (by omega) with h | h
      · omega
      · exact h
    have hgap : s.buffer.pending.lookup
        (s.buffer.receiveOffset + (sent.length - s.buffer.receiveOffset)) = none := by
      cases hl : s.buffer.pending.lookup
          (s.buffer.receiveOffset + (sent.length - s.buffer.receiveOffset)) with
      | none => rfl
      | some x =>
        have := h3 _ x hl
        obtain ⟨hlt, _⟩ := List.getElem?_eq_some_iff.1 this
        omega
    have hlen := contiguous_length s.buffer.pending s.buffer.pending.length
      s.buffer.receiveOffset (sent.length - s.buffer.receiveOffset)
      (length_ge_of_lookup _ _ _ hsome) hsome hgap
    obtain ⟨c1, _⟩ := contiguous_eq_take sent s.buffer.pending h3 s.buffer.pending.length
      s.buffer.receiveOffset h2
    have hall : (sent.drop s.buffer.receiveOffset).take (sent.length - s.buffer.receiveOffset) =
        sent.drop s.buffer.receiveOffset := List.take_of_length_le (by simp)
    rw [hlen, hall] at c1
    rw [c1, h1, List.take_append_drop]

/-- Witness of C3 on `sampleEvents`. -/
theorem reassembly_in_send_order_witness :
    (∀ e ∈ sampleEvents, e.carries sampleSent) ∧ covers sampleEvents sampleSent ∧
    (∀ n, (Receiver.run (sampleEvents.take n)).delivered <+: sampleSent) ∧
    (Receiver.run (sampleEvents ++ [StreamEvent.read])).delivered = sampleSent :=
  ⟨by decide, by decide,
    reassembly_in_send_order sampleSent sampleEvents (by decide) (by decide)⟩

/-! ## Congestion control -/

theorem gateOpen_onlyWhileOpen : gateOpen.onlyWhileOpen := by
  intro c n h
  simpa [gateOpen] using h

theorem ack_window_le (mss : Nat) (c : CongestionController) (n : Nat) :
    c.congestion_window ≤ (c.ack mss n).congestion_window := by
  unfold CongestionController.ack
  simp only
  split
  · exact Nat.le_add_right _ _
  · exact Nat.le_add_right _ _

theorem send_window (gate : SendGate) (c : CongestionController) (n : Nat) :
    (c.send gate n).congestion_window = c.congestion_window := by
  unfold CongestionController.send
  split <;> rfl

/-- One event keeps `bytes_in_flight` below `B + mss` when `B` is at least the
window the event started from. -/
theorem step_lt (gate : SendGate) (mss : Nat) (c : CongestionController) (e : CongestionEvent)
    (B : Nat) (hgate : gate.onlyWhileOpen) (he : ∀ n, e = .send n → n ≤ mss)
    (h : c.bytes_in_flight < B + mss) :
    (c.step gate mss e).bytes_in_flight < max B c.congestion_window + mss := by
  have hB : B ≤ max B c.congestion_window := Nat.le_max_left _ _
  have hW : c.congestion_window ≤ max B c.congestion_window := Nat.le_max_right _ _
  cases e with
  | send n =>
    have hn := he n rfl
    simp only [CongestionController.step, CongestionController.send]
    split
    · next hg =>
      have := hgate c n hg
      simp only
      omega
    · omega
  | ack n =>
    simp only [CongestionController.step, CongestionController.ack]
    omega
  | loss n =>
    simp only [CongestionController.step, CongestionController.loss]
    omega

/-- One event keeps `bytes_in_flight` at most `B` under a gate that admits
only packets that fit, when `B` is at least the window the event started
from. -/
theorem step_le (gate : SendGate) (mss : Nat) (c : CongestionController) (e : CongestionEvent)
    (B : Nat) (hfits : gate.fits) (h : c.bytes_in_flight ≤ B) :
    (c.step gate mss e).bytes_in_flight ≤ max B c.congestion_window := by
  have hB : B ≤ max B c.congestion_window := Nat.le_max_left _ _
  have hW : c.congestion_window ≤ max B c.congestion_window := Nat.le_max_right _ _
  cases e with
  | send n =>
    simp only [CongestionController.step, CongestionController.send]
    split
    · next hg =>
      have := hfits c n hg
      simp only
      omega
    · omega
  | ack n =>
    simp only [CongestionController.step, CongestionController.ack]
    omega
  | loss n =>
    simp only [CongestionController.step, CongestionController.loss]
    omega

theorem run_lt (gate : SendGate) (mss : Nat) (hgate : gate.onlyWhileOpen)
    (evs : List CongestionEvent) (c : CongestionController) (B : Nat)
    (hev : ∀ n, CongestionEvent.send n ∈ evs → n ≤ mss)
    (h : c.bytes_in_flight < B + mss) :
    (c.run gate mss evs).bytes_in_flight < max B (c.largestWindow gate mss evs) + mss := by
  induction evs generalizing c B with
  | nil =>
    have : B ≤ max B c.congestion_window := Nat.le_max_left _ _
    simp only [CongestionController.run, List.foldl_nil, CongestionController.largestWindow]
    omega
  | cons e evs ih =>
    have hstep := step_lt gate mss c e B hgate
      (fun n hn => hev n (hn ▸ List.mem_cons_self _ _)) h
    have := ih (c.step gate mss e) (max B c.congestion_window)
      (fun n hn => hev n (List.mem_cons_of_mem _ hn)) hstep
    simpa only [CongestionController.run, List.foldl_cons, CongestionController.largestWindow,
      Nat.max_assoc] using this

theorem run_le (gate : SendGate) (mss : Nat) (hfits : gate.fits)
    (evs : List CongestionEvent) (c : CongestionController) (B : Nat)
    (h : c.bytes_in_flight ≤ B) :
    (c.run gate mss evs).bytes_in_flight ≤ max B (c.largestWindow gate mss evs) := by
  induction evs generalizing c B with
  | nil =>
    have : B ≤ max B c.congestion_window := Nat.le_max_left _ _
    simp only [CongestionController.run, List.foldl_nil, CongestionController.largestWindow]
    omega
  | cons e evs ih =>
    have hstep := step_le gate mss c e B hfits h
    have := ih (c.step gate mss e) (max B c.congestion_window) hstep
    simpa only [CongestionController.run, List.foldl_cons, CongestionController.largestWindow,
      Nat.max_assoc] using this

/-- Without a loss the window never shrinks, so the largest window visited is
the last one. -/
theorem largestWindow_eq_of_no_loss (gate : SendGate) (mss : Nat)
    (evs : List CongestionEvent) (c : CongestionController)
    (hev : ∀ n, CongestionEvent.loss n ∉ evs) :
    c.congestion_window ≤ (c.run gate mss evs).congestion_window ∧
      c.largestWindow gate mss evs = (c.run gate mss evs).congestion_window := by
  induction evs generalizing c with
  | nil => exact ⟨Nat.le_refl _, rfl⟩
  | cons e evs ih =>
    obtain ⟨h1, h2⟩ := ih (c.step gate mss e)
      fun n hn => hev n (List.mem_cons_of_mem _ hn)
    have hstep : c.congestion_window ≤ (c.step gate mss e).congestion_window := by
      cases e with
      | send n => simp only [CongestionController.step, send_window]; exact Nat.le_refl _
      | ack n => exact ack_window_le mss c n
      | loss n => exact (hev n (List.mem_cons_self _ _)).elim
    simp only [CongestionController.run, List.foldl_cons, CongestionController.largestWindow]
    simp only [CongestionController.run] at h1 h2
    rw [h2]
    exact ⟨Nat.le_trans hstep h1, Nat.max_eq_right (Nat.le_trans hstep h1)⟩

/-- C4 fails as stated.  Under the gate that admits only packets that fit, a
window of 3600 bytes is filled exactly by three packets of 1200 bytes; the
loss of one of them halves the window to 1800 with 2400 bytes still in flight.
Under the gate that admits every packet while `bytes_in_flight` is below the
window, a window of 2400 bytes admits packets of 1200, 1000 and 1200 bytes,
which leave 3400 bytes in flight. -/
theorem bytes_in_flight_exceeds_window :
    (CongestionController.run gateFits 1200 ⟨3600, 0, 100000⟩
        [.send 1200, .send 1200, .send 1200, .loss 1200]).congestion_window <
      (CongestionController.run gateFits 1200 ⟨3600, 0, 100000⟩
        [.send 1200, .send 1200, .send 1200, .loss 1200]).bytes_in_flight ∧
    (CongestionController.run gateOpen 1200 ⟨2400, 0, 100000⟩
        [.send 1200, .send 1000, .send 1200]).congestion_window <
      (CongestionController.run gateOpen 1200 ⟨2400, 0, 100000⟩
        [.send 1200, .send 1000, .send 1200]).bytes_in_flight := by
  decide

/-- C4, amended.  From a controller with nothing in flight, under any sequence
of send, acknowledgment and loss events with packets of at most `mss` bytes,
and whatever the rule that admits packets, as long as it admits them only
while `bytes_in_flight < congestion_window`: `bytes_in_flight` is less than
the largest `congestion_window` the controller has had so far plus `mss`; it
is at most that largest window when only packets that fit into the window are
admitted; and without a loss event the largest window is the current one. -/
theorem bytes_in_flight_lt_largestWindow_add_mss (gate : SendGate) (mss : Nat)
    (c : CongestionController) (evs : List CongestionEvent) (hmss : 0 < mss)
    (h0 : c.bytes_in_flight = 0) (hgate : gate.onlyWhileOpen)
    (hev : ∀ n, CongestionEvent.send n ∈ evs → n ≤ mss) :
    (c.run gate mss evs).bytes_in_flight < c.largestWindow gate mss evs + mss ∧
    (gate.fits → (c.run gate mss evs).bytes_in_flight ≤ c.largestWindow gate mss evs) ∧
    ((∀ n, CongestionEvent.loss n ∉ evs) →
      c.largestWindow gate mss evs = (c.run gate mss evs).congestion_window) := by
  refine ⟨?_, ?_, ?_⟩
  · have := run_lt gate mss hgate evs c 0 hev (by omega)
    simpa using this
  · intro hfits
    have := run_le gate mss hfits evs c 0 (by omega)
    simpa using this
  · intro hno
    exact (largestWindow_eq_of_no_loss gate mss evs c hno).2

/-- Witness of the amended C4, on `sampleRun` under `gateOpen`. -/
theorem bytes_in_flight_lt_largestWindow_add_mss_witness :
    0 < 1200 ∧ sampleController.bytes_in_flight = 0 ∧
    gateOpen.onlyWhileOpen ∧ (∀ n, CongestionEvent.send n ∈ sampleRun → n ≤ 1200) ∧
    (sampleController.run gateOpen 1200 sampleRun).bytes_in_flight <
      sampleController.largestWindow gateOpen 1200 sampleRun + 1200 ∧
    (gateOpen.fits →
      (sampleController.run gateOpen 1200 sampleRun).bytes_in_flight ≤
        sampleController.largestWindow gateOpen 1200 sampleRun) ∧
    ((∀ n, CongestionEvent.loss n ∉ sampleRun) →
      sampleController.largestWindow gateOpen 1200 sampleRun =
        (sampleController.run gateOpen 1200 sampleRun).congestion_window) :=
  ⟨by decide, rfl, gateOpen_onlyWhileOpen,
    fun n hn => by simp [sampleRun] at hn; omega,
    bytes_in_flight_lt_largestWindow_add_mss gateOpen 1200 sampleController sampleRun
      (by decide) rfl gateOpen_onlyWhileOpen (fun n hn => by simp [sampleRun] at hn; omega)⟩

end Transport
